import Mathlib

/-!
Verification of the `dead_code_elimination` graph pass of
`coremltools/converters/mil/mil/passes/defs/cleanup/dead_code_elimination.py`.

The static method `_dead_code_elimination_block(block)` walks the block's
operations in reverse order keeping a set `used_vars` of live variables
(initialised with the block's outputs).  An operation none of whose outputs
is in `used_vars` is appended to `ops_to_remove` and skipped; otherwise all
of its input variables (tuple/list parameters flattened) are added to
`used_vars`, the pass recurses into each of its nested blocks and unions the
returned set into `used_vars`.  After the sweep, every operation in
`ops_to_remove` is logged (name and type) and removed from the block, and
`used_vars` is returned.

Modelling choices:
* a `Var` object is one natural-number id; `used_vars` is a `Finset Nat`;
* operations and blocks form a mutually inductive family, with the bespoke
  lists `OpList` and `BlockList` so that the sweep is structurally
  recursive, computable, and reduces on concrete inputs;
* the `logger.info` calls are modelled by returning, next to the rewritten
  block and the live set, the list `removed` of operations taken off the
  block and the list `nested` of diagnostic records emitted by the
  recursive calls into nested blocks; `BlockRes.diags` is the full stream
  of records one call emits.
-/

/-- One value bound to an input parameter name: either a single variable or
an ordered tuple/list of variables (a multi-input parameter). -/
inductive InputVal where
  | single : Nat → InputVal
  | multi : List Nat → InputVal

mutual
/-- An operation: name, operation type, named input parameters, output
variables, and the nested blocks it owns. -/
inductive Operation where
  | mk : String → String → List (String × InputVal) → List Nat → BlockList → Operation
/-- A block (scope): an ordered sequence of operations plus the block's
declared output variables. -/
inductive Block where
  | mk : OpList → List Nat → Block
/-- An ordered sequence of operations (list shape, mutually inductive with
`Operation` so the sweep recurses structurally). -/
inductive OpList where
  | nil : OpList
  | cons : Operation → OpList → OpList
/-- An ordered sequence of blocks. -/
inductive BlockList where
  | nil : BlockList
  | cons : Block → BlockList → BlockList
end

/-- The variables an input value contributes (`list(input_var)` after the
tuple/list flattening in the source). -/
def InputVal.vars : InputVal → List Nat
  | .single v => [v]
  | .multi vs => vs

/-- All variables appearing in a list of named inputs, flattened
(`for _, input_var in op.inputs.items(): used_vars.update(...)`). -/
def inputVarsOf (ins : List (String × InputVal)) : Finset Nat :=
  ((ins.map fun p => p.2.vars).flatten).toFinset

def Operation.name : Operation → String
  | .mk n _ _ _ _ => n

def Operation.op_type : Operation → String
  | .mk _ t _ _ _ => t

def Operation.inputs : Operation → List (String × InputVal)
  | .mk _ _ ins _ _ => ins

def Operation.outputs : Operation → List Nat
  | .mk _ _ _ outs _ => outs

def Operation.blocks : Operation → BlockList
  | .mk _ _ _ _ bs => bs

/-- The flattened set of input variables of an operation. -/
def Operation.inputVars (op : Operation) : Finset Nat :=
  inputVarsOf op.inputs

def Block.operations : Block → OpList
  | .mk ops _ => ops

def Block.outputs : Block → List Nat
  | .mk _ outs => outs

def OpList.toList : OpList → List Operation
  | .nil => []
  | .cons op rest => op :: rest.toList

def BlockList.toList : BlockList → List Block
  | .nil => []
  | .cons b rest => b :: rest.toList

/-- Result of sweeping an operation sequence: the surviving operations (in
order, nested blocks rewritten), the accumulated `used_vars`, the operations
marked for removal (`ops_to_remove`, in visit order), and the diagnostic
records emitted by recursive calls into nested blocks during the sweep. -/
structure OpsRes where
  surv : OpList
  used : Finset Nat
  removed : List Operation
  nested : List (String × String)

/-- Result of running the pass over a sequence of nested blocks: the
rewritten blocks, the union of their returned live sets, and the
concatenation of their diagnostic streams. -/
structure BlocksRes where
  blks : BlockList
  used : Finset Nat
  diags : List (String × String)

/-- Result of `_dead_code_elimination_block`: the rewritten block, the
returned `used_vars`, the removed operations, and the diagnostics emitted by
nested recursive calls. -/
structure BlockRes where
  blk : Block
  used : Finset Nat
  removed : List Operation
  nested : List (String × String)

/-- The full diagnostic stream of one `_dead_code_elimination_block` call:
records from nested calls (emitted during the sweep) followed by one
`(name, op_type)` record per operation removed from this block. -/
def BlockRes.diags (r : BlockRes) : List (String × String) :=
  r.nested ++ r.removed.map fun op => (op.name, op.op_type)

mutual
/-- The reverse sweep `for op in reversed(block.operations)` of the source,
threading `used_vars`.  On `op :: rest`, the later operations `rest` are
processed first (they are visited earlier in the reverse order); then `op`
is dead when none of its outputs is in the accumulated set, and live
otherwise, in which case its flattened inputs and the sets returned for its
nested blocks are unioned in. -/
def dead_code_elimination_ops : OpList → Finset Nat → OpsRes
  | .nil, used => ⟨.nil, used, [], []⟩
  | .cons (.mk n t ins outs bs) rest, used =>
    let r := dead_code_elimination_ops rest used
    if outs.toFinset ∩ r.used = ∅ then
      ⟨r.surv, r.used, r.removed ++ [Operation.mk n t ins outs bs], r.nested⟩
    else
      let rb := dead_code_elimination_blocks bs
      ⟨.cons (Operation.mk n t ins outs rb.blks) r.surv,
       r.used ∪ inputVarsOf ins ∪ rb.used,
       r.removed, r.nested ++ rb.diags⟩

/-- The loop `for b in op.blocks` of the source: run the pass on every
nested block of a live operation and union the returned live sets. -/
def dead_code_elimination_blocks : BlockList → BlocksRes
  | .nil => ⟨.nil, ∅, []⟩
  | .cons b bs =>
    let r := dead_code_elimination_block b
    let rs := dead_code_elimination_blocks bs
    ⟨.cons r.blk rs.blks, r.used ∪ rs.used, r.diags ++ rs.diags⟩

/-- `_dead_code_elimination_block`: initialise `used_vars` with the block's
outputs, sweep the operations in reverse, drop the operations marked dead
(order of the survivors preserved), and return `used_vars`. -/
def dead_code_elimination_block : Block → BlockRes
  | .mk ops outs =>
    let r := dead_code_elimination_ops ops outs.toFinset
    ⟨.mk r.surv outs, r.used, r.removed, r.nested⟩
end

mutual
/-- The variables an (already rewritten) operation sequence mentions: each
operation's flattened inputs together with, for each of its nested blocks,
the nested block's declared outputs and recursively the nested block's own
mentions.  Used to characterise the returned `used_vars` exactly. -/
def usesOps : OpList → Finset Nat
  | .nil => ∅
  | .cons (.mk _ _ ins _ bs) rest => inputVarsOf ins ∪ usesBlocks bs ∪ usesOps rest
/-- The variables a block sequence mentions: each block's declared outputs
together with that block's own mentions. -/
def usesBlocks : BlockList → Finset Nat
  | .nil => ∅
  | .cons (.mk ops outs) bs => outs.toFinset ∪ usesOps ops ∪ usesBlocks bs
end

/-- Transitive liveness (reachability) over a block, as the spec describes
it: a block output is reachable; if some output of an operation of the
block is reachable then each of its flattened input variables is reachable,
and every variable reported reachable in one of its nested blocks is
reachable (the live nested-scope captures). -/
inductive Reach : Block → Nat → Prop where
  | out {b : Block} {v : Nat} : v ∈ b.outputs → Reach b v
  | input {b : Block} {op : Operation} {w v : Nat} :
      op ∈ b.operations.toList → w ∈ op.outputs → Reach b w →
      v ∈ op.inputVars → Reach b v
  | nested {b : Block} {op : Operation} {w v : Nat} {nb : Block} :
      op ∈ b.operations.toList → w ∈ op.outputs → Reach b w →
      nb ∈ op.blocks.toList → Reach nb v → Reach b v

/-- An operation with its nested blocks erased; surviving operations agree
with the original ones up to the rewriting of their nested blocks. -/
def eraseTop : Operation → Operation
  | .mk n t ins outs _ => .mk n t ins outs .nil

mutual
/-- Number of operation visits one sweep performs: every operation of the
sequence is visited once, and a live operation additionally triggers the
visits of its nested blocks' sweeps. -/
def visits_ops : OpList → Finset Nat → Nat
  | .nil, _ => 0
  | .cons (.mk _ _ _ outs bs) rest, used =>
    if outs.toFinset ∩ (dead_code_elimination_ops rest used).used = ∅ then
      visits_ops rest used + 1
    else
      visits_ops rest used + 1 + visits_blocks bs
def visits_blocks : BlockList → Nat
  | .nil => 0
  | .cons (.mk ops outs) bs => visits_ops ops outs.toFinset + visits_blocks bs
end

mutual
/-- Total number of operations in a sequence, nested blocks included. -/
def total_ops : OpList → Nat
  | .nil => 0
  | .cons (.mk _ _ _ _ bs) rest => 1 + total_blocks bs + total_ops rest
/-- Total number of operations below a block sequence. -/
def total_blocks : BlockList → Nat
  | .nil => 0
  | .cons (.mk ops _) bs => total_ops ops + total_blocks bs
end

/-- Operation visits performed by `_dead_code_elimination_block` on a
block. -/
def visits_block (b : Block) : Nat :=
  visits_ops b.operations b.outputs.toFinset

/-- Total number of operations of a block, nested blocks included. -/
def total_block (b : Block) : Nat :=
  total_ops b.operations

/-- The `used_vars` set only grows during the sweep. -/
theorem used_mono : ∀ (ops : OpList) (used : Finset Nat),
    used ⊆ (dead_code_elimination_ops ops used).used
  | .nil, used => by simp [dead_code_elimination_ops]
  | .cons (.mk n t ins outs bs) rest, used => by
    have ih := used_mono rest used
    by_cases h : outs.toFinset ∩ (dead_code_elimination_ops rest used).used = ∅
    · simpa [dead_code_elimination_ops, h] using ih
    · simp only [dead_code_elimination_ops, h, if_false]
      exact ih.trans (Finset.subset_union_left.trans Finset.subset_union_left)

mutual
/-- Exact characterisation of the accumulated set of a sweep: the initial
set united with everything the surviving operations mention. -/
theorem used_char_ops : ∀ (ops : OpList) (used : Finset Nat),
    (dead_code_elimination_ops ops used).used
      = used ∪ usesOps (dead_code_elimination_ops ops used).surv
  | .nil, used => by simp [dead_code_elimination_ops, usesOps]
  | .cons (.mk n t ins outs bs) rest, used => by
    have ih := used_char_ops rest used
    have ihb := used_char_blocks bs
    by_cases h : outs.toFinset ∩ (dead_code_elimination_ops rest used).used = ∅
    · simpa [dead_code_elimination_ops, h] using ih
    · simp only [dead_code_elimination_ops, h, if_false]
      rw [ih, ihb]
      ext v
      simp only [usesOps, Finset.mem_union]
      tauto

/-- Exact characterisation of the union of the sets returned for a block
sequence. -/
theorem used_char_blocks : ∀ (bs : BlockList),
    (dead_code_elimination_blocks bs).used
      = usesBlocks (dead_code_elimination_blocks bs).blks
  | .nil => by simp [dead_code_elimination_blocks, usesBlocks]
  | .cons b bs => by
    have ihb := used_char_block b
    have ihs := used_char_blocks bs
    cases b with
    | mk ops outs =>
      simp only [dead_code_elimination_blocks, dead_code_elimination_block,
        usesBlocks] at ihb ihs ⊢
      rw [ihb, ihs]
      simp only [Block.operations, Block.outputs] at ihb ⊢

/-- Exact characterisation of the set `_dead_code_elimination_block`
returns: the block's declared outputs united with everything the surviving
operations mention. -/
theorem used_char_block : ∀ (b : Block),
    (dead_code_elimination_block b).used
      = b.outputs.toFinset ∪ usesOps (dead_code_elimination_block b).blk.operations
  | .mk ops outs => by
    have ih := used_char_ops ops outs.toFinset
    simp only [dead_code_elimination_block, Block.outputs, Block.operations]
    exact ih
end

/-- An operation of a sequence has its flattened inputs inside the
sequence's mentioned variables. -/
theorem inputVars_subset_usesOps : ∀ (ops : OpList) (op : Operation),
    op ∈ ops.toList → op.inputVars ⊆ usesOps ops
  | .nil, op, hop => by simp [OpList.toList] at hop
  | .cons (.mk n t ins outs bs) rest, op, hop => by
    rcases (by simpa [OpList.toList] using hop :
        op = Operation.mk n t ins outs bs ∨ op ∈ rest.toList) with h | h
    · subst h
      simp only [Operation.inputVars, Operation.inputs, usesOps]
      exact Finset.subset_union_left.trans Finset.subset_union_left
    · exact (inputVars_subset_usesOps rest op h).trans
        (by simp only [usesOps]; exact Finset.subset_union_right)

mutual
/-- Soundness invariant of the sweep: if every seed variable is reachable in
a reference block whose operation list contains every swept operation, then
every variable of the accumulated set is reachable, and every surviving
operation has a reachable output. -/
theorem reach_ops : ∀ (β : Block) (ops : OpList) (used : Finset Nat),
    (∀ op, op ∈ ops.toList → op ∈ β.operations.toList) →
    (∀ v ∈ used, Reach β v) →
    (∀ v ∈ (dead_code_elimination_ops ops used).used, Reach β v) ∧
    (∀ op, op ∈ (dead_code_elimination_ops ops used).surv.toList →
      ∃ w, w ∈ op.outputs ∧ Reach β w)
  | β, .nil, used, hsub, hused => by
    refine ⟨?_, ?_⟩
    · intro v hv
      simp only [dead_code_elimination_ops] at hv
      exact hused v hv
    · intro op hop
      simp [dead_code_elimination_ops, OpList.toList] at hop
  | β, .cons (.mk n t ins outs bs) rest, used, hsub, hused => by
    have hsub' : ∀ op, op ∈ rest.toList → op ∈ β.operations.toList := by
      intro op hop
      exact hsub op (by simp [OpList.toList, hop])
    have ih := reach_ops β rest used hsub' hused
    have hmem : Operation.mk n t ins outs bs ∈ β.operations.toList :=
      hsub _ (by simp [OpList.toList])
    by_cases h : outs.toFinset ∩ (dead_code_elimination_ops rest used).used = ∅
    · refine ⟨?_, ?_⟩
      · intro v hv
        simp only [dead_code_elimination_ops, h, if_true] at hv
        exact ih.1 v (by simpa using hv)
      · intro op hop
        simp only [dead_code_elimination_ops, h, if_true] at hop
        exact ih.2 op (by simpa using hop)
    · obtain ⟨w, hw⟩ := Finset.nonempty_iff_ne_empty.mpr h
      obtain ⟨hw1, hw2⟩ := Finset.mem_inter.mp hw
      have hwreach : Reach β w := ih.1 w hw2
      have hwout : w ∈ (Operation.mk n t ins outs bs).outputs := by
        simpa [Operation.outputs] using List.mem_toFinset.mp hw1
      refine ⟨?_, ?_⟩
      · intro v hv
        simp only [dead_code_elimination_ops, h, if_false] at hv
        rcases Finset.mem_union.mp hv with hv' | hvb
        · rcases Finset.mem_union.mp hv' with hvr | hvi
          · exact ih.1 v hvr
          · refine Reach.input hmem hwout hwreach ?_
            simpa [Operation.inputVars, Operation.inputs] using hvi
        · obtain ⟨nb, hnb, hr⟩ := reach_blocks bs v hvb
          exact Reach.nested hmem hwout hwreach
            (by simpa [Operation.blocks] using hnb) hr
      · intro op hop
        simp only [dead_code_elimination_ops, h, if_false] at hop
        rcases (by simpa [OpList.toList] using hop :
            op = Operation.mk n t ins outs
                  (dead_code_elimination_blocks bs).blks
              ∨ op ∈ (dead_code_elimination_ops rest used).surv.toList) with h' | h'
        · subst h'
          exact ⟨w, by simpa [Operation.outputs] using hwout, hwreach⟩
        · exact ih.2 op h'

/-- Every variable of the union returned for a block sequence is reachable
in one of the blocks of the sequence. -/
theorem reach_blocks : ∀ (bs : BlockList) (v : Nat),
    v ∈ (dead_code_elimination_blocks bs).used → ∃ nb ∈ bs.toList, Reach nb v
  | .nil, v, hv => by simp [dead_code_elimination_blocks] at hv
  | .cons b bs, v, hv => by
    simp only [dead_code_elimination_blocks] at hv
    rcases Finset.mem_union.mp hv with h1 | h2
    · exact ⟨b, by simp [BlockList.toList], reach_block b v h1⟩
    · obtain ⟨nb, hnb, hr⟩ := reach_blocks bs v h2
      exact ⟨nb, by simp [BlockList.toList, hnb], hr⟩

/-- Every variable of the set `_dead_code_elimination_block` returns is
reachable in the block it was called on. -/
theorem reach_block : ∀ (b : Block) (v : Nat),
    v ∈ (dead_code_elimination_block b).used → Reach b v
  | .mk ops outs, v, hv => by
    have h := reach_ops (Block.mk ops outs) ops outs.toFinset
      (fun op hop => by simpa [Block.operations] using hop)
      (fun w hw => Reach.out (by
        simpa [Block.outputs] using List.mem_toFinset.mp hw))
    simp only [dead_code_elimination_block] at hv
    exact h.1 v hv
end

/-- Every operation surviving the pass has at least one output that is
reachable from the block's outputs (through live operations and live
nested-scope captures). -/
theorem surv_has_reachable_output : ∀ (b : Block) (op : Operation),
    op ∈ (dead_code_elimination_block b).blk.operations.toList →
    ∃ w, w ∈ op.outputs ∧ Reach b w
  | .mk ops outs, op, hop => by
    have h := reach_ops (Block.mk ops outs) ops outs.toFinset
      (fun op' hop' => by simpa [Block.operations] using hop')
      (fun w hw => Reach.out (by
        simpa [Block.outputs] using List.mem_toFinset.mp hw))
    exact h.2 op (by
      simpa [dead_code_elimination_block, Block.operations] using hop)

/-- The surviving operations (nested blocks erased) form a subsequence of
the original operations (nested blocks erased): their relative order is
unchanged. -/
theorem surv_sublist_ops : ∀ (ops : OpList) (used : Finset Nat),
    ((dead_code_elimination_ops ops used).surv.toList.map eraseTop).Sublist
      (ops.toList.map eraseTop)
  | .nil, used => by simp [dead_code_elimination_ops, OpList.toList]
  | .cons (.mk n t ins outs bs) rest, used => by
    have ih := surv_sublist_ops rest used
    by_cases h : outs.toFinset ∩ (dead_code_elimination_ops rest used).used = ∅
    · simp only [dead_code_elimination_ops, h, if_true, OpList.toList, List.map_cons]
      exact ih.cons _
    · simp only [dead_code_elimination_ops, h, if_false, OpList.toList, List.map_cons,
        eraseTop]
      exact ih.cons₂ _

/-- Survivors and removed operations together account for every operation
of the sequence. -/
theorem surv_removed_length : ∀ (ops : OpList) (used : Finset Nat),
    (dead_code_elimination_ops ops used).surv.toList.length
      + (dead_code_elimination_ops ops used).removed.length
      = ops.toList.length
  | .nil, used => by simp [dead_code_elimination_ops, OpList.toList]
  | .cons (.mk n t ins outs bs) rest, used => by
    have ih := surv_removed_length rest used
    by_cases h : outs.toFinset ∩ (dead_code_elimination_ops rest used).used = ∅
    · simp only [dead_code_elimination_ops, h, if_true, OpList.toList,
        List.length_append, List.length_cons, List.length_nil]
      omega
    · simp only [dead_code_elimination_ops, h, if_false, OpList.toList,
        List.length_cons]
      omega

mutual
/-- One sweep visits each operation of the sequence at most once: the visit
count is bounded by the total operation count, nested blocks included. -/
theorem visits_ops_le : ∀ (ops : OpList) (used : Finset Nat),
    visits_ops ops used ≤ total_ops ops
  | .nil, used => by simp [visits_ops, total_ops]
  | .cons (.mk n t ins outs bs) rest, used => by
    have ih := visits_ops_le rest used
    have ihb := visits_blocks_le bs
    by_cases h : outs.toFinset ∩ (dead_code_elimination_ops rest used).used = ∅
    · simp only [visits_ops, h, if_true, total_ops]
      omega
    · simp only [visits_ops, h, if_false, total_ops]
      omega

/-- Visit count of the sweeps over a block sequence, bounded by its total
operation count. -/
theorem visits_blocks_le : ∀ (bs : BlockList),
    visits_blocks bs ≤ total_blocks bs
  | .nil => by simp [visits_blocks, total_blocks]
  | .cons (.mk ops outs) bs => by
    have ih := visits_ops_le ops outs.toFinset
    have ihs := visits_blocks_le bs
    simp only [visits_blocks, total_blocks]
    omega
end

mutual
/-- The sweep is idempotent: re-sweeping the survivors with the same seed
set keeps them all, returns the same set, and removes nothing. -/
theorem idem_ops : ∀ (ops : OpList) (used : Finset Nat),
    dead_code_elimination_ops (dead_code_elimination_ops ops used).surv used
      = ⟨(dead_code_elimination_ops ops used).surv,
         (dead_code_elimination_ops ops used).used, [], []⟩
  | .nil, used => by simp [dead_code_elimination_ops]
  | .cons (.mk n t ins outs bs) rest, used => by
    have ih := idem_ops rest used
    have ihb := idem_blocks bs
    by_cases h : outs.toFinset ∩ (dead_code_elimination_ops rest used).used = ∅
    · simpa [dead_code_elimination_ops, h] using ih
    · simp [dead_code_elimination_ops, h, ih, ihb, BlockRes.diags]

/-- Re-running the pass over already rewritten nested blocks changes
nothing and emits no diagnostics. -/
theorem idem_blocks : ∀ (bs : BlockList),
    dead_code_elimination_blocks (dead_code_elimination_blocks bs).blks
      = ⟨(dead_code_elimination_blocks bs).blks,
         (dead_code_elimination_blocks bs).used, []⟩
  | .nil => by simp [dead_code_elimination_blocks]
  | .cons b bs => by
    have ihb := idem_block b
    have ihs := idem_blocks bs
    simp [dead_code_elimination_blocks, ihb, ihs, BlockRes.diags]

/-- Re-running `_dead_code_elimination_block` on its own result changes
nothing: no operation is removed and no diagnostic is emitted. -/
theorem idem_block : ∀ (b : Block),
    dead_code_elimination_block (dead_code_elimination_block b).blk
      = ⟨(dead_code_elimination_block b).blk,
         (dead_code_elimination_block b).used, [], []⟩
  | .mk ops outs => by
    have ih := idem_ops ops outs.toFinset
    simp [dead_code_elimination_block, ih]
end

/-- A single constant operation defining variable 0. -/
def exConstOp : Operation := .mk "c" "const" [] [0] .nil

/-- A block whose only operation defines the block's declared output. -/
def exOutBlock : Block := .mk (.cons exConstOp .nil) [0]

/-- An operation consuming variable 7 (free in `exLinBlock`) and defining
variable 0. -/
def exLinOp : Operation := .mk "f" "linear" [("x", InputVal.single 7)] [0] .nil

/-- A block whose surviving operation consumes the free variable 7. -/
def exLinBlock : Block := .mk (.cons exLinOp .nil) [0]

/-- An operation defining variable 0, dead inside `exDeadBlock`. -/
def exDeadOp : Operation := .mk "d" "const" [] [0] .nil

/-- A block with no declared outputs, whose only operation is dead. -/
def exDeadBlock : Block := .mk (.cons exDeadOp .nil) []

/-- Claim C1 fails on the code: for the block `exOutBlock` the returned set
contains variable 0 even though 0 is defined by an operation inside the
block (it is `exConstOp`'s output), so the returned set is not the set of
variables the block consumes but does not define — that set is empty here,
while the pass returns the accumulated `used_vars`, block outputs
included. -/
theorem C1_counterexample :
    exConstOp ∈ exOutBlock.operations.toList
      ∧ 0 ∈ exConstOp.outputs
      ∧ 0 ∈ (dead_code_elimination_block exOutBlock).used := by
  refine ⟨List.Mem.head _, ?_, ?_⟩
  · simp [exConstOp, Operation.outputs]
  · decide

/-- Claim C1 (amended): the set `_dead_code_elimination_block` returns
contains every flattened input variable of every surviving operation — in
particular every free variable the surviving computation consumes directly
from enclosing scopes — but it is not the set of captured free variables
alone: as `C1_counterexample` shows, variables defined by operations inside
the block (such as the block's own outputs) may belong to it as well. -/
theorem C1_returned_set_contains_survivor_inputs :
    ∀ (b : Block) (op : Operation) (v : Nat),
      op ∈ (dead_code_elimination_block b).blk.operations.toList →
      v ∈ op.inputVars → v ∈ (dead_code_elimination_block b).used := by
  intro b op v hop hv
  cases b with
  | mk ops outs =>
    have hchar := used_char_ops ops outs.toFinset
    have hsub := inputVars_subset_usesOps
      (dead_code_elimination_ops ops outs.toFinset).surv op
      (by simpa [dead_code_elimination_block, Block.operations] using hop)
    simp only [dead_code_elimination_block]
    rw [hchar]
    exact Finset.mem_union_right _ (hsub hv)

/-- Witness for the amended claim C1 at the block `exLinBlock`: its
operation survives, consumes the free variable 7, and 7 is in the returned
set. -/
theorem C1_returned_set_contains_survivor_inputs_witness :
    exLinOp ∈ (dead_code_elimination_block exLinBlock).blk.operations.toList
      ∧ 7 ∈ exLinOp.inputVars
      ∧ 7 ∈ (dead_code_elimination_block exLinBlock).used := by
  have hm : exLinOp ∈ (dead_code_elimination_block exLinBlock).blk.operations.toList :=
    List.Mem.head _
  exact ⟨hm, by decide,
    C1_returned_set_contains_survivor_inputs exLinBlock exLinOp 7 hm (by decide)⟩

/-- Claim C2 (reachability completeness): an operation of the block none of
whose output variables is reachable from the block's declared outputs is
not among the operations of the rewritten block. -/
theorem C2_unreachable_op_is_removed :
    ∀ (b : Block) (op : Operation),
      op ∈ b.operations.toList →
      (∀ w ∈ op.outputs, ¬ Reach b w) →
      op ∉ (dead_code_elimination_block b).blk.operations.toList := by
  intro b op _ hdead hop
  obtain ⟨w, hw, hr⟩ := surv_has_reachable_output b op hop
  exact hdead w hw hr

/-- Witness for claim C2 at `exDeadBlock`: its operation has no reachable
output (the block declares no outputs) and is removed by the pass. -/
theorem C2_unreachable_op_is_removed_witness :
    exDeadOp ∈ exDeadBlock.operations.toList
      ∧ (∀ w ∈ exDeadOp.outputs, ¬ Reach exDeadBlock w)
      ∧ exDeadOp ∉ (dead_code_elimination_block exDeadBlock).blk.operations.toList := by
  have h1 : exDeadOp ∈ exDeadBlock.operations.toList := List.Mem.head _
  have h2 : ∀ w ∈ exDeadOp.outputs, ¬ Reach exDeadBlock w := by
    intro w _ hr
    cases hr with
    | out h => simp [exDeadBlock, Block.outputs] at h
    | input hop hwo hrw hv =>
      have hop' := hop
      simp only [exDeadBlock, Block.operations, OpList.toList,
        List.mem_singleton] at hop'
      rw [hop'] at hv
      simp [exDeadOp, Operation.inputVars, Operation.inputs, inputVarsOf] at hv
    | nested hop hwo hrw hnb hr2 =>
      have hop' := hop
      simp only [exDeadBlock, Block.operations, OpList.toList,
        List.mem_singleton] at hop'
      rw [hop'] at hnb
      simp [exDeadOp, Operation.blocks, BlockList.toList] at hnb
  exact ⟨h1, h2, C2_unreachable_op_is_removed exDeadBlock exDeadOp h1 h2⟩

/-- Claim C3 (reachability soundness): every operation remaining in the
rewritten block has at least one output variable reachable from the block's
declared outputs or through a live nested-scope capture. -/
theorem C3_survivor_has_reachable_output :
    ∀ (b : Block) (op : Operation),
      op ∈ (dead_code_elimination_block b).blk.operations.toList →
      ∃ w, w ∈ op.outputs ∧ Reach b w :=
  surv_has_reachable_output

/-- Witness for claim C3 at `exOutBlock`: the surviving operation has the
reachable output 0. -/
theorem C3_survivor_has_reachable_output_witness :
    exConstOp ∈ (dead_code_elimination_block exOutBlock).blk.operations.toList
      ∧ ∃ w, w ∈ exConstOp.outputs ∧ Reach exOutBlock w := by
  have hm : exConstOp ∈ (dead_code_elimination_block exOutBlock).blk.operations.toList :=
    List.Mem.head _
  exact ⟨hm, C3_survivor_has_reachable_output exOutBlock exConstOp hm⟩

/-- Claim C4: an operation visited while none of its outputs is in the
current liveness set is recorded as dead and skipped: the accumulated set
is unchanged (its inputs are never inspected), its nested blocks are not
recursed into (their sweeps contribute nothing to the set and no diagnostic
record is emitted for any operation inside them), and the only new
diagnostic is the one record for the dead operation itself. -/
theorem C4_dead_op_not_descended :
    ∀ (n t : String) (ins : List (String × InputVal)) (outs : List Nat)
      (bs : BlockList) (rest : OpList) (used : Finset Nat),
      outs.toFinset ∩ (dead_code_elimination_ops rest used).used = ∅ →
      dead_code_elimination_ops (.cons (.mk n t ins outs bs) rest) used
        = ⟨(dead_code_elimination_ops rest used).surv,
           (dead_code_elimination_ops rest used).used,
           (dead_code_elimination_ops rest used).removed
             ++ [Operation.mk n t ins outs bs],
           (dead_code_elimination_ops rest used).nested⟩ := by
  intro n t ins outs bs rest used h
  simp [dead_code_elimination_ops, h]

/-- Witness for claim C4: a dead constant operation is skipped whole. -/
theorem C4_dead_op_not_descended_witness :
    ([0] : List Nat).toFinset ∩ (dead_code_elimination_ops .nil ∅).used = ∅
      ∧ dead_code_elimination_ops (.cons (.mk "d" "const" [] [0] .nil) .nil) ∅
          = ⟨(dead_code_elimination_ops .nil ∅).surv,
             (dead_code_elimination_ops .nil ∅).used,
             (dead_code_elimination_ops .nil ∅).removed
               ++ [Operation.mk "d" "const" [] [0] .nil],
             (dead_code_elimination_ops .nil ∅).nested⟩ := by
  have h : ([0] : List Nat).toFinset ∩ (dead_code_elimination_ops .nil ∅).used = ∅ := by
    decide
  exact ⟨h, C4_dead_op_not_descended "d" "const" [] [0] .nil .nil ∅ h⟩

/-- Claim C5 (order preservation): the operations of the rewritten block,
compared up to the rewriting of their nested blocks, form a subsequence of
the original operation sequence — the relative order of the survivors is
unchanged — and survivors and removed operations together account for every
original operation. -/
theorem C5_order_preservation :
    ∀ (b : Block),
      ((dead_code_elimination_block b).blk.operations.toList.map eraseTop).Sublist
        (b.operations.toList.map eraseTop)
      ∧ (dead_code_elimination_block b).blk.operations.toList.length
          + (dead_code_elimination_block b).removed.length
          = b.operations.toList.length := by
  intro b
  cases b with
  | mk ops outs =>
    refine ⟨?_, ?_⟩
    · simpa [dead_code_elimination_block, Block.operations] using
        surv_sublist_ops ops outs.toFinset
    · simpa [dead_code_elimination_block, Block.operations] using
        surv_removed_length ops outs.toFinset

/-- Witness for claim C5 at the block `exOutBlock`. -/
theorem C5_order_preservation_witness :
    ((dead_code_elimination_block exOutBlock).blk.operations.toList.map eraseTop).Sublist
        (exOutBlock.operations.toList.map eraseTop)
      ∧ (dead_code_elimination_block exOutBlock).blk.operations.toList.length
          + (dead_code_elimination_block exOutBlock).removed.length
          = exOutBlock.operations.toList.length :=
  C5_order_preservation exOutBlock

/-- Claim C6 (idempotence): running the pass a second time on the block the
first run produced keeps the block as it is, returns the same set, removes
no further operation and emits no diagnostics. -/
theorem C6_idempotence :
    ∀ (b : Block),
      dead_code_elimination_block (dead_code_elimination_block b).blk
        = ⟨(dead_code_elimination_block b).blk,
           (dead_code_elimination_block b).used, [], []⟩ :=
  idem_block

/-- Witness for claim C6 at the block `exOutBlock`. -/
theorem C6_idempotence_witness :
    dead_code_elimination_block (dead_code_elimination_block exOutBlock).blk
      = ⟨(dead_code_elimination_block exOutBlock).blk,
         (dead_code_elimination_block exOutBlock).used, [], []⟩ :=
  C6_idempotence exOutBlock

/-- Claim C7: the sweep's liveness set is seeded with exactly the block's
declared outputs, and what the sweep adds is exactly what the live
(surviving) operations mention — their flattened input variables and, for
their nested blocks, the nested outputs and mentions in turn: the returned
set equals the declared outputs united with the survivors' mentions. -/
theorem C7_liveness_set_exact :
    ∀ (b : Block),
      (dead_code_elimination_block b).used
        = b.outputs.toFinset
            ∪ usesOps (dead_code_elimination_block b).blk.operations :=
  used_char_block

/-- Witness for claim C7 at the block `exLinBlock`. -/
theorem C7_liveness_set_exact_witness :
    (dead_code_elimination_block exLinBlock).used
      = exLinBlock.outputs.toFinset
          ∪ usesOps (dead_code_elimination_block exLinBlock).blk.operations :=
  C7_liveness_set_exact exLinBlock

/-- Claim C8: on the empty block (no operations and no declared outputs)
the pass removes nothing, emits no diagnostics, and returns the empty
set. -/
theorem C8_empty_block :
    (dead_code_elimination_block (Block.mk .nil [])).blk = Block.mk .nil []
      ∧ (dead_code_elimination_block (Block.mk .nil [])).used = ∅
      ∧ (dead_code_elimination_block (Block.mk .nil [])).removed = []
      ∧ BlockRes.diags (dead_code_elimination_block (Block.mk .nil [])) = [] := by
  refine ⟨rfl, by decide, rfl, rfl⟩

/-- Claim C9 (termination): the pass is a total function of the block in
this model, and one run performs at most as many operation visits as the
block transitively contains operations — each operation is visited at most
once per enclosing sweep, the nested sweeps of a live operation completing
before the enclosing sweep moves on. -/
theorem C9_visits_bounded : ∀ (b : Block), visits_block b ≤ total_block b := by
  intro b
  cases b with
  | mk ops outs =>
    simpa [visits_block, total_block, Block.operations, Block.outputs] using
      visits_ops_le ops outs.toFinset

/-- Witness for claim C9 at the block `exOutBlock`. -/
theorem C9_visits_bounded_witness : visits_block exOutBlock ≤ total_block exOutBlock :=
  C9_visits_bounded exOutBlock

/-- Claim C10: the returned set is a superset of the block's declared
output variables — including outputs produced by operations defined inside
the block itself — because `used_vars` is seeded with the outputs and only
grows; the caller unions the returned set into its own liveness set, so
these internally defined variables flow into the enclosing sweep's set. -/
theorem C10_outputs_in_returned_set :
    ∀ (b : Block), b.outputs.toFinset ⊆ (dead_code_elimination_block b).used := by
  intro b
  cases b with
  | mk ops outs =>
    simpa [dead_code_elimination_block, Block.outputs] using
      used_mono ops outs.toFinset

/-- Witness for claim C10 at the block `exOutBlock`, whose declared output
0 is produced by its own operation and is in the returned set. -/
theorem C10_outputs_in_returned_set_witness :
    (0 : Nat) ∈ exOutBlock.outputs.toFinset
      ∧ (0 : Nat) ∈ (dead_code_elimination_block exOutBlock).used := by
  have h : (0 : Nat) ∈ exOutBlock.outputs.toFinset := by decide
  exact ⟨h, C10_outputs_in_returned_set exOutBlock h⟩
